import Mathlib

/-!
Shallow embedding of the credential-verification core of the mrpfx backend
(`app/core/security.py`): the phpass (portable PHP password hash) verifier,
the bcrypt branch, the legacy-MD5 fallback, the scheme dispatcher
`verify_password`, and the JWT token helpers.

Python strings are modelled as `List Char`; byte strings as `List Nat`
(each entry one byte value).  A Python expression that can raise an
exception is modelled with an `Option` result, `none` meaning an uncaught
exception.  Cryptographic primitives that live outside the repository
(`hashlib.md5`, `bcrypt.checkpw` / `bcrypt.hashpw`, `jose.jwt`) enter as
parameters or as interface models; everything else is translated statement
by statement from the source.
-/

namespace Mrpfx

/-- Python `s.startswith(p)` on strings modelled as char lists. -/
def pyStartsWith (s p : List Char) : Bool := p.isPrefixOf s

/-- The index of the first occurrence of `c` in `s`, if any. -/
def pyFindAux (s : List Char) (c : Char) : Option Nat :=
  match s with
  | [] => none
  | a :: rest => if a = c then some 0 else (pyFindAux rest c).map (· + 1)

/-- Python `str.find` for a single-character needle: the index of the first
occurrence of `c` in `s`, or `-1` when `c` does not occur. -/
def pyFind (s : List Char) (c : Char) : Int :=
  match pyFindAux s c with
  | some n => (n : Int)
  | none => -1

/-- UTF-8 encoding of one Unicode code point (one character of Python
`str.encode("utf-8")`). -/
def utf8Char (c : Char) : List Nat :=
  let n := c.toNat
  if n < 0x80 then [n]
  else if n < 0x800 then [0xC0 + n / 0x40, 0x80 + n % 0x40]
  else if n < 0x10000 then [0xE0 + n / 0x1000, 0x80 + n / 0x40 % 0x40, 0x80 + n % 0x40]
  else [0xF0 + n / 0x40000, 0x80 + n / 0x1000 % 0x40, 0x80 + n / 0x40 % 0x40, 0x80 + n % 0x40]

/-- Python `s.encode("utf-8")` on a char-list string. -/
def utf8 (s : List Char) : List Nat := (s.map utf8Char).flatten

/-- `ITOA64`, the phpass base-64 alphabet (security.py line 23). -/
def ITOA64 : List Char := "./0123456789ABCDEFGHIJKLMNOPQRSTUVWXYZabcdefghijklmnopqrstuvwxyz".data

/-- One emitted character of `_encode64`: `ITOA64[value & 0x3f]` applied to an
already-shifted value. -/
def itoaAt (v : Nat) : Char := ITOA64.getD (v &&& 0x3f) '.'

/-- The chunk loop of `_encode64` (security.py lines 33-53), acting on the
bytes the loop actually consumes: each group of up to three bytes is packed
little-endian into a 24-bit value (`byte0 | byte1<<8 | byte2<<16`) and emitted
as 6-bit slices, stopping as soon as the group's input bytes are exhausted. -/
def encode64Chunks : List Nat → List Char
  | [] => []
  | [b0] =>
      let v := b0
      [itoaAt v, itoaAt (v >>> 6)]
  | [b0, b1] =>
      let v := b0 ||| (b1 <<< 8)
      [itoaAt v, itoaAt (v >>> 6), itoaAt (v >>> 12)]
  | b0 :: b1 :: b2 :: rest =>
      let v := b0 ||| (b1 <<< 8) ||| (b2 <<< 16)
      itoaAt v :: itoaAt (v >>> 6) :: itoaAt (v >>> 12) :: itoaAt (v >>> 18) ::
        encode64Chunks rest

/-- `_encode64(input_bytes, count)` (security.py lines 26-55).  Every index the
loop reads is guarded by `i < count`, so when `count` exceeds the number of
available bytes the source raises `IndexError`; that case is `none`. -/
def _encode64 (input_bytes : List Nat) (count : Nat) : Option (List Char) :=
  if count ≤ input_bytes.length then some (encode64Chunks (input_bytes.take count)) else none

/-- An abstract interface for `hashlib.md5(...).digest()`: a function from
byte strings to byte strings. -/
abbrev Md5 := List Nat → List Nat

/-- What the real `hashlib.md5` digest guarantees: sixteen bytes, each below
256.  Theorems that need this carry it as a hypothesis. -/
def Md5Spec (md5 : Md5) : Prop := ∀ b, (md5 b).length = 16 ∧ ∀ x ∈ md5 b, x < 256

/-- The iterated digest of `_crypt_private` (security.py lines 92-95):
`hash = md5(salt ++ password)` followed by `count` rounds of
`hash = md5(hash ++ password)`, the plaintext password re-appended on every
round. -/
def phpassDigest (md5 : Md5) (password salt : List Char) (count : Nat) : List Nat :=
  (fun h => md5 (h ++ utf8 password))^[count] (md5 (utf8 (salt ++ password)))

/-- `_crypt_private(password, stored_hash)` (security.py lines 58-100).
`stored_hash[3]` raises `IndexError` when the stored hash has fewer than four
characters; that is the `none` case. -/
def _crypt_private (md5 : Md5) (password stored_hash : List Char) : Option (List Char) :=
  let output := if pyStartsWith stored_hash "*0".data then "*1".data else "*0".data
  if !pyStartsWith stored_hash "$P$".data && !pyStartsWith stored_hash "$H$".data then
    some output
  else
    match stored_hash[3]? with
    | none => none
    | some count_log2_char =>
      let count_log2 : Int := pyFind ITOA64 count_log2_char
      if count_log2 < 7 ∨ 30 < count_log2 then some output
      else
        let count : Nat := 2 ^ count_log2.toNat
        let salt := (stored_hash.drop 4).take 8
        if salt.length ≠ 8 then some output
        else
          match _encode64 (phpassDigest md5 password salt count) 16 with
          | none => none
          | some enc => some (stored_hash.take 12 ++ enc)

/-- `verify_phpass_password(password, stored_hash)` (security.py lines
103-118): prefix gate, then recompute and compare with `==`. -/
def verify_phpass_password (md5 : Md5) (password stored_hash : List Char) : Option Bool :=
  if !pyStartsWith stored_hash "$P$".data && !pyStartsWith stored_hash "$H$".data then
    some false
  else
    (_crypt_private md5 password stored_hash).map (fun computed => computed == stored_hash)

/-- An abstract interface for `bcrypt.checkpw`: from the candidate password
and the stored hash it either returns a Boolean, or raises (`none`). -/
abbrev Checkpw := List Char → List Char → Option Bool

/-- `verify_bcrypt_password(password, stored_hash)` (security.py lines
121-147): rewrite a leading `$2y$` to `$2b$`, delegate to `bcrypt.checkpw`,
and map any raised exception to `False` via the surrounding `try`/`except`. -/
def verify_bcrypt_password (checkpw : Checkpw) (password stored_hash : List Char) : Bool :=
  let hash_to_check :=
    if pyStartsWith stored_hash "$2y$".data then "$2b$".data ++ stored_hash.drop 4
    else stored_hash
  (checkpw password hash_to_check).getD false

/-- `hash_password(password)` (security.py lines 150-165): a fresh salt from
`bcrypt.gensalt(rounds=settings.BCRYPT_ROUNDS)` and a call to
`bcrypt.hashpw`; the library primitives appear as the parameters `hashpw`
and `salt`. -/
def hash_password {σ : Type} (hashpw : List Char → σ → List Char) (salt : σ)
    (password : List Char) : List Char :=
  hashpw password salt

/-- Python `str.lower()`. -/
def pyLower (s : List Char) : List Char := s.map Char.toLower

/-- The lowercase hex alphabet used by `hashlib.md5(...).hexdigest()` and by
the dispatcher's hex test. -/
def hexChars : List Char := "0123456789abcdef".data

/-- `hashlib.md5(...).hexdigest()`: two lowercase hex digits per digest
byte. -/
def hexdigest (d : List Nat) : List Char :=
  (d.map (fun b => [hexChars.getD (b / 16) '0', hexChars.getD (b % 16) '0'])).flatten

/-- `verify_password(password, stored_hash)` (security.py lines 168-198): the
scheme dispatcher.  `none` models an uncaught exception escaping to the
caller. -/
def verify_password (md5 : Md5) (checkpw : Checkpw) (password stored_hash : List Char) :
    Option Bool :=
  if stored_hash.isEmpty then some false
  else if pyStartsWith stored_hash "$P$".data || pyStartsWith stored_hash "$H$".data then
    verify_phpass_password md5 password stored_hash
  else if pyStartsWith stored_hash "$2".data then
    some (verify_bcrypt_password checkpw password stored_hash)
  else if stored_hash.length == 32 && (pyLower stored_hash).all (fun c => hexChars.contains c) then
    some (pyLower (hexdigest (md5 (utf8 password))) == pyLower stored_hash)
  else some false

/-- The stored-hash layout `_crypt_private` reconstructs (security.py lines
97-98): scheme tag `$P$`, the iteration character `ITOA64[l]`, the
8-character salt, then the phpass encoding of the iterated digest.  This is
the shape of every hash the phpass path can accept. -/
def phpassHash (md5 : Md5) (password salt : List Char) (l : Nat) : List Char :=
  "$P$".data ++ [ITOA64.getD l '.'] ++ salt ++
    encode64Chunks ((phpassDigest md5 password salt (2 ^ l)).take 16)

/-- Cost model of the short-circuiting equality
`computed_hash == stored_hash` at security.py line 118: the number of
character positions inspected before the comparison resolves (a length
mismatch resolves before any character is read, and inspection stops at the
first differing position). -/
def eqSteps : List Char → List Char → Nat
  | [], _ => 0
  | _, [] => 0
  | a :: s, b :: t => 1 + if a = b then eqSteps s t else 0

/-- Values appearing in a JWT claims map: strings (`sub`, `type`, extra
claims) and integer timestamps (the `exp` entry, once the `datetime` is
converted to a Unix timestamp as `jose` does). -/
inductive JVal : Type
  | s (v : List Char)
  | t (v : Int)
deriving DecidableEq

/-- A Python `dict` payload, in insertion order. -/
abbrev Payload := List (List Char × JVal)

/-- One assignment `d[k] = v` of Python `dict.update`: replace the value in
place when the key is present, append otherwise. -/
def pyDictSet (d : Payload) (k : List Char) (v : JVal) : Payload :=
  if d.any (fun p => p.1 == k) then d.map (fun p => if p.1 == k then (k, v) else p)
  else d ++ [(k, v)]

/-- Python `d.update({...})`: assign the pairs left to right. -/
def pyDictUpdate (d : Payload) (kvs : List (List Char × JVal)) : Payload :=
  kvs.foldl (fun acc kv => pyDictSet acc kv.1 kv.2) d

/-- Python `d.get(k)` / `d[k]` on a payload. -/
def pyDictGet (d : Payload) (k : List Char) : Option JVal :=
  (d.find? (fun p => p.1 == k)).map (fun p => p.2)

/-- Modelled from the spec: the `python-jose` token value, which lives
outside this repository and is specified only at its interface — a token
produced by `jwt.encode` determines its claims payload and is verifiable
exactly under the signing key and algorithm it was created with; any other
bearer string is structurally invalid. -/
inductive JwtToken : Type
  | signed (payload : Payload) (key : List Char) (alg : List Char)
  | malformed (raw : List Char)
deriving DecidableEq

/-- Modelled from the spec: `jose.jwt.encode(claims, key, algorithm)`. -/
def jwtEncode (payload : Payload) (key alg : List Char) : JwtToken :=
  .signed payload key alg

/-- Modelled from the spec: `jose.jwt.decode(token, key, algorithms)` at
time `now` (a Unix timestamp).  It raises `JWTError` (`none`) on a
structurally invalid token, a signature-key or algorithm mismatch, a
non-numeric `exp` claim, or an expired token; otherwise it returns the
claims map. -/
def jwtDecode (tok : JwtToken) (key : List Char) (algs : List (List Char)) (now : Int) :
    Option Payload :=
  match tok with
  | .malformed _ => none
  | .signed p k a =>
    if k == key && algs.contains a then
      match pyDictGet p "exp".data with
      | some (.t e) => if now < e then some p else none
      | some (.s _) => none
      | none => some p
    else none

/-- The `expire` value computed by `create_access_token` (security.py lines
224-227): `now + expires_delta` when a truthy `timedelta` is given, else the
configured default.  `now` models `datetime.now(timezone.utc)` as a Unix
timestamp, `expires_delta` a `timedelta` in seconds (`none` when the
argument is omitted); note the Python truthiness test `if expires_delta:`,
under which a zero `timedelta` falls back to the default. -/
def accessExpire (accessTtlMin : Int) (now : Int) (expires_delta : Option Int) : Int :=
  match expires_delta with
  | some d => if d == 0 then now + 60 * accessTtlMin else now + d
  | none => now + 60 * accessTtlMin

/-- The `expire` value computed by `create_refresh_token` (security.py line
245): `now + timedelta(days=settings.REFRESH_TOKEN_EXPIRE_DAYS)`. -/
def refreshExpire (refreshTtlDays : Int) (now : Int) : Int :=
  now + 86400 * refreshTtlDays

/-- `create_access_token(data, expires_delta)` (security.py lines 211-231).
`key`, `alg` and `accessTtlMin` model `settings.JWT_SECRET_KEY`,
`settings.JWT_ALGORITHM` and `settings.ACCESS_TOKEN_EXPIRE_MINUTES`. -/
def create_access_token (key alg : List Char) (accessTtlMin : Int) (data : Payload)
    (now : Int) (expires_delta : Option Int) : JwtToken :=
  let to_encode := data
  let expire : Int := accessExpire accessTtlMin now expires_delta
  jwtEncode (pyDictUpdate to_encode [("exp".data, .t expire), ("type".data, .s "access".data)])
    key alg

/-- `create_refresh_token(data)` (security.py lines 234-248), with
`refreshTtlDays` modelling `settings.REFRESH_TOKEN_EXPIRE_DAYS`. -/
def create_refresh_token (key alg : List Char) (refreshTtlDays : Int) (data : Payload)
    (now : Int) : JwtToken :=
  let to_encode := data
  let expire : Int := refreshExpire refreshTtlDays now
  jwtEncode (pyDictUpdate to_encode [("exp".data, .t expire), ("type".data, .s "refresh".data)])
    key alg

/-- `decode_token(token)` (security.py lines 251-269): `jwt.decode` under
the configured key and the one-element algorithm list, with any `JWTError`
caught and mapped to `None` — which the interface model already returns as
`none`. -/
def decode_token (key alg : List Char) (now : Int) (token : JwtToken) : Option Payload :=
  jwtDecode token key [alg] now

/-- The claims map a token carries (`[]` for a structurally invalid one). -/
def tokenPayload : JwtToken → Payload
  | .signed p _ _ => p
  | .malformed _ => []

/-- The acceptance condition stated by the specification for the phpass
verifier, transcribed for comparison with `verify_phpass_password`: the
stored hash starts with `$P$` or `$H$`, its fourth character has itoa64
index in `[7, 30]`, positions 4-11 form a full 8-character salt, and the
hash equals its own first 12 characters followed by the itoa64 encoding of
the digest obtained from `2^L` extra MD5 rounds over `MD5(salt ++
password)`. -/
def phpassAcceptCond (md5 : Md5) (password stored_hash : List Char) : Prop :=
  (pyStartsWith stored_hash "$P$".data || pyStartsWith stored_hash "$H$".data) = true
  ∧ ∃ c, stored_hash[3]? = some c
      ∧ 7 ≤ pyFind ITOA64 c ∧ pyFind ITOA64 c ≤ 30
      ∧ ((stored_hash.drop 4).take 8).length = 8
      ∧ stored_hash = stored_hash.take 12 ++
          encode64Chunks
            (phpassDigest md5 password ((stored_hash.drop 4).take 8)
              (2 ^ (pyFind ITOA64 c).toNat))

/-- A small executable stand-in digest used only to instantiate witnesses:
sixteen bytes derived from the input's sum and length. -/
def toyMd5 : Md5 :=
  fun b => (List.range 16).map (fun i => (b.sum + 17 * i + b.length) % 256)

/-- A bcrypt oracle that accepts every (password, hash) pair; used in
counterexamples to make dispatch differences visible. -/
def ckTrue : Checkpw := fun _ _ => some true

/-- A bcrypt oracle that raises on the malformed `$2b$2y$` double-prefix
(as the real library does, since `2y` is not a valid cost field) and accepts
everything else. -/
def ckRaiseDouble : Checkpw :=
  fun _ h => if pyStartsWith h "$2b$2y$".data then none else some true

/-- A stand-in for `bcrypt.hashpw` used in witnesses: the salt is ignored
and the hash is a `$2b$12$` header followed by the password. -/
def toyHashpw : List Char → Unit → List Char :=
  fun p _ => "$2b$12$".data ++ p

/-- The bcrypt oracle matching `toyHashpw`. -/
def ckToyExact : Checkpw := fun p h => some (h == "$2b$12$".data ++ p)

/-! ## Helper lemmas -/

@[simp] theorem pyStartsWith_nil_needle (s : List Char) : pyStartsWith s [] = true := by
  simp [pyStartsWith, List.isPrefixOf]

@[simp] theorem pyStartsWith_nil_hay (b : Char) (p : List Char) :
    pyStartsWith [] (b :: p) = false := by
  simp [pyStartsWith, List.isPrefixOf]

@[simp] theorem pyStartsWith_cons (a b : Char) (s p : List Char) :
    pyStartsWith (a :: s) (b :: p) = (b == a && pyStartsWith s p) := by
  simp [pyStartsWith, List.isPrefixOf]

theorem pyStartsWith_iff (s p : List Char) : pyStartsWith s p = true ↔ ∃ t, s = p ++ t := by
  rw [pyStartsWith, List.isPrefixOf_iff_prefix]
  exact ⟨fun ⟨t, ht⟩ => ⟨t, ht.symm⟩, fun ⟨t, ht⟩ => ⟨t, ht.symm⟩⟩

/-! ## C2 -/

/-- C2: the claim says `verify_password` never raises, but on a stored hash
that begins with `$P$` yet is shorter than four characters the phpass path
evaluates `stored_hash[3]` and the source raises `IndexError`; in the
embedding the call returns `none` (an uncaught exception), for every
password and any digest and bcrypt primitive. -/
theorem C2_short_phpass_hash_raises (md5 : Md5) (checkpw : Checkpw) (password : List Char) :
    verify_password md5 checkpw password "$P$".data = none := rfl

/-! ## C4 -/

/-- C4: a stored hash matching none of the three recognized shapes — no
`$P$`/`$H$` prefix, no `$2` prefix, and failing the 32-hex-character test —
makes `verify_password` return `False` for every password, independently of
the digest and bcrypt primitives (so no verifier is consulted). -/
theorem C4_unrecognized_scheme_rejects (md5 : Md5) (checkpw : Checkpw)
    (password stored_hash : List Char)
    (hP : pyStartsWith stored_hash "$P$".data = false)
    (hH : pyStartsWith stored_hash "$H$".data = false)
    (h2 : pyStartsWith stored_hash "$2".data = false)
    (hhex : (stored_hash.length == 32 &&
      (pyLower stored_hash).all (fun c => hexChars.contains c)) = false) :
    verify_password md5 checkpw password stored_hash = some false := by
  rcases stored_hash with _ | ⟨a, t⟩
  · simp [verify_password]
  · simp only [verify_password, List.isEmpty_cons, hP, hH, h2, hhex, Bool.or_self,
      Bool.false_or, Bool.or_false]
    simp

/-- Witness for C4: the empty password against a 64-character SHA-256 hex
digest is rejected. -/
theorem C4_witness :
    verify_password toyMd5 ckTrue []
      "9f86d081884c7d659a2feaa0c55ad015a3bf4f1b2b0b822cd15d6c15b0f00a08".data
      = some false :=
  C4_unrecognized_scheme_rejects _ _ _ _ (by decide) (by decide) (by decide) (by decide)

/-! ## C1 -/

/-- C1 counterexample: with a bcrypt primitive that accepts every pair (so
the correct password certainly verifies on the `$2y$` form), the `$2y$`
dialect verifies but the `$wp$`-wrapped spelling of the same hash is
rejected — `verify_password` does not return the same result on all four
dialect forms, because no `$wp$` stripping exists in the code. -/
theorem C1_counterexample :
    verify_password toyMd5 ckTrue "pw".data
        "$2y$10$LHYo7UVsQAuOjtnmcY53c.5tVd9Zu01Y1vwkH4IAJwcGnOuPnjh9q".data = some true
  ∧ verify_password toyMd5 ckTrue "pw".data
        "$wp$2y$10$LHYo7UVsQAuOjtnmcY53c.5tVd9Zu01Y1vwkH4IAJwcGnOuPnjh9q".data = some false := by
  constructor
  · rfl
  · decide

/-- C1 (amended): the `$2y$` and `$2b$` spellings of one body are treated
identically — both delegate the `$2b$` form to the bcrypt primitive — but a
`$wp$`-prefixed hash is an unrecognized scheme and is rejected for every
password and every bcrypt primitive, and a `$2b$2y$` double-prefixed hash is
passed to the primitive unnormalized, so when the primitive raises on its
malformed cost field (as the real library does) the result is `False` even
for the correct password. -/
theorem C1_bcrypt_dialect_dispatch (md5 : Md5) (checkpw : Checkpw)
    (password rest : List Char) :
    (verify_password md5 checkpw password ("$2y$".data ++ rest)
        = some ((checkpw password ("$2b$".data ++ rest)).getD false)
      ∧ verify_password md5 checkpw password ("$2b$".data ++ rest)
        = some ((checkpw password ("$2b$".data ++ rest)).getD false))
  ∧ (∀ w, verify_password md5 checkpw password ("$wp$".data ++ w) = some false)
  ∧ (checkpw password ("$2b$2y$".data ++ rest) = none →
      verify_password md5 checkpw password ("$2b$2y$".data ++ rest) = some false) := by
  refine ⟨⟨?_, ?_⟩, ?_, ?_⟩
  · show verify_password md5 checkpw password ('$' :: '2' :: 'y' :: '$' :: rest) = _
    simp [verify_password, verify_bcrypt_password]
  · show verify_password md5 checkpw password ('$' :: '2' :: 'b' :: '$' :: rest) = _
    simp [verify_password, verify_bcrypt_password]
  · intro w
    show verify_password md5 checkpw password ('$' :: 'w' :: 'p' :: '$' :: w) = _
    simp only [verify_password, List.isEmpty_cons, pyStartsWith_cons, pyLower]
    simp only [List.map_cons, List.all_cons]
    simp
    intro _ h
    exact absurd h (by decide)
  · intro hnone
    have hn : checkpw password ('$' :: '2' :: 'b' :: '$' :: '2' :: 'y' :: '$' :: rest) = none :=
      hnone
    show verify_password md5 checkpw password ('$' :: '2' :: 'b' :: '$' :: '2' :: 'y' :: '$' :: rest) = _
    simp [verify_password, verify_bcrypt_password, hn]

/-- Witness for C1 (amended): concrete instances for each conjunct,
including a bcrypt primitive that raises on the `$2b$2y$` double prefix. -/
theorem C1_witness :
    verify_password toyMd5 ckRaiseDouble "pw".data
        ("$2y$".data ++ "10$LHYo7UVsQAuOjtnmcY53c.".data) = some true
  ∧ verify_password toyMd5 ckRaiseDouble "pw".data
        ("$wp$".data ++ "2y$10$LHYo7UVsQAuOjtnmcY53c.".data) = some false
  ∧ verify_password toyMd5 ckRaiseDouble "pw".data
        ("$2b$2y$".data ++ "10$LHYo7UVsQAuOjtnmcY53c.".data) = some false := by
  have h := C1_bcrypt_dialect_dispatch toyMd5 ckRaiseDouble "pw".data
    "10$LHYo7UVsQAuOjtnmcY53c.".data
  exact ⟨by rw [h.1.1]; decide, h.2.1 "2y$10$LHYo7UVsQAuOjtnmcY53c.".data,
    h.2.2 (by decide)⟩

/-! ## C5 -/

theorem hexChars_getD_mem (n : Nat) : hexChars.getD n '0' ∈ hexChars := by
  by_cases h : n < 16
  · interval_cases n <;> decide
  · rw [List.getD_eq_default]
    · decide
    · simp only [hexChars]
      show 16 ≤ n
      omega

theorem toLower_of_mem_hexChars : ∀ c ∈ hexChars, c.toLower = c := by decide

/-- `hexdigest` output is already lowercase, so the `.lower()` at
security.py line 196 is the identity on it. -/
theorem pyLower_hexdigest (d : List Nat) : pyLower (hexdigest d) = hexdigest d := by
  induction d with
  | nil => rfl
  | cons b t ih =>
    show pyLower ([hexChars.getD (b / 16) '0', hexChars.getD (b % 16) '0'] ++ hexdigest t)
      = [hexChars.getD (b / 16) '0', hexChars.getD (b % 16) '0'] ++ hexdigest t
    simp only [pyLower, List.map_append] at ih ⊢
    rw [ih, List.map_cons, List.map_cons, List.map_nil,
      toLower_of_mem_hexChars _ (hexChars_getD_mem (b / 16)),
      toLower_of_mem_hexChars _ (hexChars_getD_mem (b % 16))]

/-- A string whose lowercasing is all-hex cannot start with `$`. -/
theorem all_hex_not_dollar {a : Char} {t : List Char}
    (h : (pyLower (a :: t)).all (fun c => hexChars.contains c) = true) (p : List Char) :
    pyStartsWith (a :: t) ('$' :: p) = false := by
  simp only [pyLower, List.map_cons, List.all_cons, Bool.and_eq_true] at h
  rcases h with ⟨h1, _⟩
  simp only [pyStartsWith_cons]
  by_cases ha : a = '$'
  · subst ha
    exact absurd h1 (by decide)
  · rw [Bool.and_eq_false_iff]
    left
    exact beq_eq_false_iff_ne.mpr fun hh => ha hh.symm

/-- C5: for a stored value of exactly 32 hex characters (in either case)
`verify_password` returns `True` precisely when the lowercase MD5 hex digest
of the password equals the stored hash compared case-insensitively; a stored
value of any other length that matches no hash prefix never matches. -/
theorem C5_legacy_md5_path (md5 : Md5) (checkpw : Checkpw) (password stored_hash : List Char) :
    (stored_hash.length = 32 →
      (pyLower stored_hash).all (fun c => hexChars.contains c) = true →
      (verify_password md5 checkpw password stored_hash = some true ↔
        hexdigest (md5 (utf8 password)) = pyLower stored_hash))
  ∧ (stored_hash.length ≠ 32 →
      pyStartsWith stored_hash "$P$".data = false →
      pyStartsWith stored_hash "$H$".data = false →
      pyStartsWith stored_hash "$2".data = false →
      verify_password md5 checkpw password stored_hash = some false) := by
  constructor
  · intro hlen hhex
    rcases stored_hash with _ | ⟨a, t⟩
    · simp at hlen
    · have hP : pyStartsWith (a :: t) "$P$".data = false := all_hex_not_dollar hhex _
      have hH : pyStartsWith (a :: t) "$H$".data = false := all_hex_not_dollar hhex _
      have h2 : pyStartsWith (a :: t) "$2".data = false := all_hex_not_dollar hhex _
      have hcond : ((a :: t).length == 32 &&
          (pyLower (a :: t)).all (fun c => hexChars.contains c)) = true := by
        rw [Bool.and_eq_true]
        exact ⟨beq_iff_eq.mpr hlen, hhex⟩
      simp only [verify_password, List.isEmpty_cons, hP, hH, h2, Bool.or_self, hcond,
        Bool.false_or, Bool.or_false, if_false, if_true, pyLower_hexdigest]
      constructor
      · intro hsome
        have := Option.some.inj hsome
        exact beq_iff_eq.mp this
      · intro heq
        simp [heq]
  · intro hlen hP hH h2
    rcases stored_hash with _ | ⟨a, t⟩
    · simp [verify_password]
    · have hcond : ((a :: t).length == 32 &&
          (pyLower (a :: t)).all (fun c => hexChars.contains c)) = false := by
        have : ((a :: t).length == 32) = false := by
          simp only [beq_eq_false_iff_ne]
          exact hlen
        rw [this, Bool.false_and]
      simp only [verify_password, List.isEmpty_cons, hP, hH, h2, Bool.or_self, hcond,
        Bool.false_or, Bool.or_false]
      simp

/-- Witness for C5: the digest of `"pw"` under the stand-in MD5 matches its
own 32-hex-character spelling, and a 31-character hex string never matches. -/
theorem C5_witness :
    verify_password toyMd5 ckTrue "pw".data (hexdigest (toyMd5 (utf8 "pw".data))) = some true
    ∧ verify_password toyMd5 ckTrue "pw".data "0123456789abcdef0123456789abcde".data
        = some false :=
  ⟨((C5_legacy_md5_path toyMd5 ckTrue "pw".data _).1 (by decide) (by decide)).mpr
      (pyLower_hexdigest _).symm,
    (C5_legacy_md5_path toyMd5 ckTrue "pw".data _).2 (by decide) (by decide) (by decide)
      (by decide)⟩

/-! ## C7 -/

/-- C7: whenever the bcrypt primitive honors its contract on the fresh hash
— the produced string starts with `$2b$` and the same password checks
against it — `hash_password`'s output starts with `$2b$` and
`verify_password` accepts the password against it (round-trip). -/
theorem C7_hash_roundtrip {σ : Type} (md5 : Md5) (checkpw : Checkpw)
    (hashpw : List Char → σ → List Char) (salt : σ) (password : List Char)
    (h2b : pyStartsWith (hash_password hashpw salt password) "$2b$".data = true)
    (hck : checkpw password (hash_password hashpw salt password) = some true) :
    pyStartsWith (hash_password hashpw salt password) "$2b$".data = true
    ∧ verify_password md5 checkpw password (hash_password hashpw salt password) = some true := by
  refine ⟨h2b, ?_⟩
  rcases (pyStartsWith_iff _ _).mp h2b with ⟨tail, ht⟩
  rw [ht] at hck ⊢
  have hck' : checkpw password ('$' :: '2' :: 'b' :: '$' :: tail) = some true := hck
  show verify_password md5 checkpw password ('$' :: '2' :: 'b' :: '$' :: tail) = some true
  simp [verify_password, verify_bcrypt_password, hck']

/-- Witness for C7: the stand-in `bcrypt.hashpw` and its matching oracle. -/
theorem C7_witness :
    pyStartsWith (hash_password toyHashpw () "pw".data) "$2b$".data = true
    ∧ verify_password toyMd5 ckToyExact "pw".data (hash_password toyHashpw () "pw".data)
        = some true :=
  C7_hash_roundtrip toyMd5 ckToyExact toyHashpw () "pw".data (by decide) (by decide)

/-! ## C6 -/

theorem itoaAt_mem (v : Nat) : itoaAt v ∈ ITOA64 := by
  unfold itoaAt
  have h1 : v &&& 0x3f ≤ 0x3f := Nat.and_le_right
  interval_cases h : (v &&& 0x3f) <;> decide

theorem encode64Chunks_length (l : List Nat) :
    (encode64Chunks l).length = (4 * l.length + 2) / 3 := by
  induction l using encode64Chunks.induct with
  | case1 => rfl
  | case2 b0 => simp [encode64Chunks]
  | case3 b0 b1 => simp [encode64Chunks]
  | case4 b0 b1 b2 rest ih =>
    show (_ :: _ :: _ :: _ :: encode64Chunks rest).length = _
    simp only [List.length_cons, ih, List.length_cons]
    omega

theorem encode64Chunks_mem (l : List Nat) : ∀ c ∈ encode64Chunks l, c ∈ ITOA64 := by
  induction l using encode64Chunks.induct with
  | case1 => intro c hc; cases hc
  | case2 b0 =>
    intro c hc
    rcases hc with _ | ⟨_, _ | ⟨_, h⟩⟩ <;> first | exact itoaAt_mem _ | cases h
  | case3 b0 b1 =>
    intro c hc
    rcases hc with _ | ⟨_, _ | ⟨_, _ | ⟨_, h⟩⟩⟩ <;> first | exact itoaAt_mem _ | cases h
  | case4 b0 b1 b2 rest ih =>
    intro c hc
    rcases hc with _ | ⟨_, _ | ⟨_, _ | ⟨_, _ | ⟨_, h⟩⟩⟩⟩ <;>
      first | exact itoaAt_mem _ | exact ih _ h

/-- C6: on a 16-byte input with `count = 16`, `_encode64` succeeds and its
output has exactly 22 characters (not the 24 of a full final-group
emission), each drawn from the itoa64 alphabet; the output is the chunked
6-bit-slice emission `encode64Chunks`. -/
theorem C6_encode64_length22 (b : List Nat) (hlen : b.length = 16) :
    _encode64 b 16 = some (encode64Chunks b)
    ∧ (encode64Chunks b).length = 22
    ∧ ∀ c ∈ encode64Chunks b, c ∈ ITOA64 := by
  refine ⟨?_, ?_, encode64Chunks_mem b⟩
  · unfold _encode64
    rw [if_pos (by omega), ← hlen, List.take_length]
  · rw [encode64Chunks_length, hlen]

/-- Witness for C6: a concrete 16-byte input. -/
theorem C6_witness :
    _encode64 ((List.range 16).map (fun i => 10 * i + 7)) 16
      = some (encode64Chunks ((List.range 16).map (fun i => 10 * i + 7)))
    ∧ (encode64Chunks ((List.range 16).map (fun i => 10 * i + 7))).length = 22
    ∧ ∀ c ∈ encode64Chunks ((List.range 16).map (fun i => 10 * i + 7)), c ∈ ITOA64 :=
  C6_encode64_length22 _ (by decide)

/-! ## Injectivity of the phpass encoding on byte strings -/

theorem pyFind_itoa_getD : ∀ i < 64, pyFind ITOA64 (ITOA64.getD i '.') = i := by decide

theorem itoa_getD_inj {i j : Nat} (hi : i < 64) (hj : j < 64)
    (h : ITOA64.getD i '.' = ITOA64.getD j '.') : i = j := by
  have h1 := pyFind_itoa_getD i hi
  have h2 := pyFind_itoa_getD j hj
  rw [h, h2] at h1
  exact_mod_cast h1.symm

theorem itoaAt_inj {x y : Nat} (h : itoaAt x = itoaAt y) : x &&& 0x3f = y &&& 0x3f := by
  have hx : x &&& 0x3f < 64 := by
    have := Nat.and_le_right (n := x) (m := 0x3f)
    omega
  have hy : y &&& 0x3f < 64 := by
    have := Nat.and_le_right (n := y) (m := 0x3f)
    omega
  exact itoa_getD_inj hx hy h

theorem testBit_63 (i : Nat) : Nat.testBit 63 i = decide (i < 6) := by
  have h : (63 : Nat) = 2 ^ 6 - 1 := rfl
  rw [h, Nat.testBit_two_pow_sub_one]

theorem slice_bits {v w n : Nat} (h : (v >>> n) &&& 63 = (w >>> n) &&& 63)
    {i : Nat} (hi : i < 6) : v.testBit (n + i) = w.testBit (n + i) := by
  have h2 := congrArg (fun x => Nat.testBit x i) h
  simpa [Nat.testBit_and, Nat.testBit_shiftRight, testBit_63, hi] using h2

theorem byte_testBit_high {b i : Nat} (hb : b < 256) (hi : 8 ≤ i) : b.testBit i = false := by
  refine Nat.testBit_lt_two_pow (lt_of_lt_of_le hb ?_)
  calc (256 : Nat) = 2 ^ 8 := by norm_num
    _ ≤ 2 ^ i := Nat.pow_le_pow_right (by norm_num) hi

theorem or2_bit_lo {b0 b1 i : Nat} (hi : i < 8) :
    (b0 ||| (b1 <<< 8)).testBit i = b0.testBit i := by
  simp [Nat.testBit_or, Nat.testBit_shiftLeft, Nat.not_le.mpr hi]

theorem or2_bit_hi {b0 b1 i : Nat} (hb0 : b0 < 256) (hi : 8 ≤ i) :
    (b0 ||| (b1 <<< 8)).testBit i = b1.testBit (i - 8) := by
  simp [Nat.testBit_or, Nat.testBit_shiftLeft, hi, byte_testBit_high hb0 hi]

theorem or3_bit_lo {b0 b1 b2 i : Nat} (hi : i < 8) :
    (b0 ||| (b1 <<< 8) ||| (b2 <<< 16)).testBit i = b0.testBit i := by
  simp [Nat.testBit_or, Nat.testBit_shiftLeft, Nat.not_le.mpr hi,
    Nat.not_le.mpr (show i < 16 by omega)]

theorem or3_bit_mid {b0 b1 b2 i : Nat} (hb0 : b0 < 256) (h8 : 8 ≤ i) (h16 : i < 16) :
    (b0 ||| (b1 <<< 8) ||| (b2 <<< 16)).testBit i = b1.testBit (i - 8) := by
  simp [Nat.testBit_or, Nat.testBit_shiftLeft, h8, Nat.not_le.mpr h16,
    byte_testBit_high hb0 h8]

theorem or3_bit_hi {b0 b1 b2 i : Nat} (hb0 : b0 < 256) (hb1 : b1 < 256) (h16 : 16 ≤ i) :
    (b0 ||| (b1 <<< 8) ||| (b2 <<< 16)).testBit i = b2.testBit (i - 16) := by
  have h8 : 8 ≤ i := by omega
  simp [Nat.testBit_or, Nat.testBit_shiftLeft, h8, h16,
    byte_testBit_high hb0 h8, byte_testBit_high hb1 (show 8 ≤ i - 8 by omega)]

theorem chunk1_inj {b c : Nat} (hb : b < 256) (hc : c < 256)
    (h0 : b &&& 63 = c &&& 63)
    (h1 : (b >>> 6) &&& 63 = (c >>> 6) &&& 63) : b = c := by
  apply Nat.eq_of_testBit_eq
  intro i
  rcases Nat.lt_or_ge i 6 with hi | hi
  · have h := slice_bits (n := 0) (v := b) (w := c) (by simpa [Nat.shiftRight_zero] using h0) hi
    simpa using h
  · rcases Nat.lt_or_ge i 12 with hi2 | hi2
    · have h := slice_bits (n := 6) h1 (i := i - 6) (by omega)
      rwa [show 6 + (i - 6) = i by omega] at h
    · rw [byte_testBit_high hb (by omega), byte_testBit_high hc (by omega)]

theorem chunk2_inj {b0 b1 c0 c1 : Nat} (hb0 : b0 < 256) (hb1 : b1 < 256)
    (hc0 : c0 < 256) (hc1 : c1 < 256)
    (e0 : (b0 ||| (b1 <<< 8)) &&& 63 = (c0 ||| (c1 <<< 8)) &&& 63)
    (e1 : ((b0 ||| (b1 <<< 8)) >>> 6) &&& 63 = ((c0 ||| (c1 <<< 8)) >>> 6) &&& 63)
    (e2 : ((b0 ||| (b1 <<< 8)) >>> 12) &&& 63 = ((c0 ||| (c1 <<< 8)) >>> 12) &&& 63) :
    b0 = c0 ∧ b1 = c1 := by
  have hbits : ∀ i, i < 18 →
      (b0 ||| (b1 <<< 8)).testBit i = (c0 ||| (c1 <<< 8)).testBit i := by
    intro i hi
    rcases Nat.lt_or_ge i 6 with h6 | h6
    · have h := slice_bits (n := 0) (by simpa [Nat.shiftRight_zero] using e0) h6
      simpa using h
    · rcases Nat.lt_or_ge i 12 with h12 | h12
      · have h := slice_bits (n := 6) e1 (i := i - 6) (by omega)
        rwa [show 6 + (i - 6) = i by omega] at h
      · have h := slice_bits (n := 12) e2 (i := i - 12) (by omega)
        rwa [show 12 + (i - 12) = i by omega] at h
  constructor
  · apply Nat.eq_of_testBit_eq
    intro i
    rcases Nat.lt_or_ge i 8 with hi | hi
    · have h := hbits i (by omega)
      rwa [or2_bit_lo hi, or2_bit_lo hi] at h
    · rw [byte_testBit_high hb0 hi, byte_testBit_high hc0 hi]
  · apply Nat.eq_of_testBit_eq
    intro i
    rcases Nat.lt_or_ge i 8 with hi | hi
    · have h := hbits (i + 8) (by omega)
      rw [or2_bit_hi hb0 (by omega), or2_bit_hi hc0 (by omega)] at h
      simpa using h
    · rw [byte_testBit_high hb1 hi, byte_testBit_high hc1 hi]

theorem chunk3_inj {b0 b1 b2 c0 c1 c2 : Nat} (hb0 : b0 < 256) (hb1 : b1 < 256)
    (hb2 : b2 < 256) (hc0 : c0 < 256) (hc1 : c1 < 256) (hc2 : c2 < 256)
    (e0 : (b0 ||| (b1 <<< 8) ||| (b2 <<< 16)) &&& 63
        = (c0 ||| (c1 <<< 8) ||| (c2 <<< 16)) &&& 63)
    (e1 : ((b0 ||| (b1 <<< 8) ||| (b2 <<< 16)) >>> 6) &&& 63
        = ((c0 ||| (c1 <<< 8) ||| (c2 <<< 16)) >>> 6) &&& 63)
    (e2 : ((b0 ||| (b1 <<< 8) ||| (b2 <<< 16)) >>> 12) &&& 63
        = ((c0 ||| (c1 <<< 8) ||| (c2 <<< 16)) >>> 12) &&& 63)
    (e3 : ((b0 ||| (b1 <<< 8) ||| (b2 <<< 16)) >>> 18) &&& 63
        = ((c0 ||| (c1 <<< 8) ||| (c2 <<< 16)) >>> 18) &&& 63) :
    b0 = c0 ∧ b1 = c1 ∧ b2 = c2 := by
  have hbits : ∀ i, i < 24 →
      (b0 ||| (b1 <<< 8) ||| (b2 <<< 16)).testBit i
        = (c0 ||| (c1 <<< 8) ||| (c2 <<< 16)).testBit i := by
    intro i hi
    rcases Nat.lt_or_ge i 6 with h6 | h6
    · have h := slice_bits (n := 0) (by simpa [Nat.shiftRight_zero] using e0) h6
      simpa using h
    · rcases Nat.lt_or_ge i 12 with h12 | h12
      · have h := slice_bits (n := 6) e1 (i := i - 6) (by omega)
        rwa [show 6 + (i - 6) = i by omega] at h
      · rcases Nat.lt_or_ge i 18 with h18 | h18
        · have h := slice_bits (n := 12) e2 (i := i - 12) (by omega)
          rwa [show 12 + (i - 12) = i by omega] at h
        · have h := slice_bits (n := 18) e3 (i := i - 18) (by omega)
          rwa [show 18 + (i - 18) = i by omega] at h
  refine ⟨?_, ?_, ?_⟩
  · apply Nat.eq_of_testBit_eq
    intro i
    rcases Nat.lt_or_ge i 8 with hi | hi
    · have h := hbits i (by omega)
      rwa [or3_bit_lo hi, or3_bit_lo hi] at h
    · rw [byte_testBit_high hb0 hi, byte_testBit_high hc0 hi]
  · apply Nat.eq_of_testBit_eq
    intro i
    rcases Nat.lt_or_ge i 8 with hi | hi
    · have h := hbits (i + 8) (by omega)
      rw [or3_bit_mid hb0 (by omega) (by omega), or3_bit_mid hc0 (by omega) (by omega)] at h
      simpa using h
    · rw [byte_testBit_high hb1 hi, byte_testBit_high hc1 hi]
  · apply Nat.eq_of_testBit_eq
    intro i
    rcases Nat.lt_or_ge i 8 with hi | hi
    · have h := hbits (i + 16) (by omega)
      rw [or3_bit_hi hb0 hb1 (by omega), or3_bit_hi hc0 hc1 (by omega)] at h
      simpa using h
    · rw [byte_testBit_high hb2 hi, byte_testBit_high hc2 hi]

/-- The phpass encoding is injective on byte strings of equal length. -/
theorem encode64Chunks_inj (l : List Nat) : ∀ l' : List Nat, l.length = l'.length →
    (∀ x ∈ l, x < 256) → (∀ x ∈ l', x < 256) →
    encode64Chunks l = encode64Chunks l' → l = l' := by
  induction l using encode64Chunks.induct with
  | case1 =>
    intro l' hlen _ _ _
    symm
    exact List.eq_nil_of_length_eq_zero hlen.symm
  | case2 b0 =>
    intro l' hlen hb hc henc
    rcases l' with _ | ⟨c0, m1⟩
    · cases hlen
    rcases m1 with _ | ⟨c1, m2⟩
    · simp only [encode64Chunks, List.cons.injEq, and_true] at henc
      obtain ⟨h0, h1⟩ := henc
      rw [chunk1_inj (hb b0 (by simp)) (hc c0 (by simp)) (itoaAt_inj h0) (itoaAt_inj h1)]
    · simp at hlen
  | case3 b0 b1 =>
    intro l' hlen hb hc henc
    rcases l' with _ | ⟨c0, m1⟩
    · cases hlen
    rcases m1 with _ | ⟨c1, m2⟩
    · simp at hlen
    rcases m2 with _ | ⟨c2, m3⟩
    · simp only [encode64Chunks, List.cons.injEq, and_true] at henc
      obtain ⟨h0, h1, h2⟩ := henc
      obtain ⟨r0, r1⟩ := chunk2_inj (hb b0 (by simp)) (hb b1 (by simp))
        (hc c0 (by simp)) (hc c1 (by simp))
        (itoaAt_inj h0) (itoaAt_inj h1) (itoaAt_inj h2)
      rw [r0, r1]
    · simp at hlen
  | case4 b0 b1 b2 rest ih =>
    intro l' hlen hb hc henc
    rcases l' with _ | ⟨c0, m1⟩
    · cases hlen
    rcases m1 with _ | ⟨c1, m2⟩
    · simp at hlen
    rcases m2 with _ | ⟨c2, rest'⟩
    · simp at hlen
    simp only [encode64Chunks, List.cons.injEq] at henc
    obtain ⟨h0, h1, h2, h3, htail⟩ := henc
    obtain ⟨r0, r1, r2⟩ := chunk3_inj (hb b0 (by simp)) (hb b1 (by simp)) (hb b2 (by simp))
      (hc c0 (by simp)) (hc c1 (by simp)) (hc c2 (by simp))
      (itoaAt_inj h0) (itoaAt_inj h1) (itoaAt_inj h2) (itoaAt_inj h3)
    have hlen' : rest.length = rest'.length := by
      simp only [List.length_cons] at hlen
      omega
    have htl := ih rest' hlen' (fun x hx => hb x (by simp [hx]))
      (fun x hx => hc x (by simp [hx])) htail
    rw [r0, r1, r2, htl]

/-! ## C3 -/

theorem phpassDigest_spec (md5 : Md5) (hm : Md5Spec md5) (pw S : List Char) (n : Nat) :
    (phpassDigest md5 pw S n).length = 16 ∧ ∀ x ∈ phpassDigest md5 pw S n, x < 256 := by
  cases n with
  | zero => exact hm _
  | succ m =>
    rw [phpassDigest, Function.iterate_succ_apply']
    exact hm _

theorem crypt_private_parsed (md5 : Md5) (hm : Md5Spec md5) (pw h : List Char)
    (hpre : (!pyStartsWith h "$P$".data && !pyStartsWith h "$H$".data) = false)
    {c : Char} (hc : h[3]? = some c)
    (h7 : 7 ≤ pyFind ITOA64 c) (h30 : pyFind ITOA64 c ≤ 30)
    (hsalt : ((h.drop 4).take 8).length = 8) :
    _crypt_private md5 pw h = some (h.take 12 ++
      encode64Chunks (phpassDigest md5 pw ((h.drop 4).take 8)
        (2 ^ (pyFind ITOA64 c).toNat))) := by
  have hno : ¬ (pyFind ITOA64 c < 7 ∨ 30 < pyFind ITOA64 c) := by omega
  have hdig := phpassDigest_spec md5 hm pw ((h.drop 4).take 8) (2 ^ (pyFind ITOA64 c).toNat)
  have htake : (phpassDigest md5 pw ((h.drop 4).take 8) (2 ^ (pyFind ITOA64 c).toNat)).take 16
      = phpassDigest md5 pw ((h.drop 4).take 8) (2 ^ (pyFind ITOA64 c).toNat) := by
    rw [← hdig.1, List.take_length]
  simp only [_crypt_private, hpre, Bool.false_eq_true, if_false, hc, hno, hsalt,
    _encode64, hdig.1, htake]
  simp

theorem crypt_private_idx_none (md5 : Md5) (pw h : List Char)
    (hpre : (!pyStartsWith h "$P$".data && !pyStartsWith h "$H$".data) = false)
    (hc : h[3]? = none) :
    _crypt_private md5 pw h = none := by
  simp only [_crypt_private, hpre, Bool.false_eq_true, if_false, hc]

theorem crypt_private_reject (md5 : Md5) (pw h : List Char)
    (hpre : (!pyStartsWith h "$P$".data && !pyStartsWith h "$H$".data) = false)
    {c : Char} (hc : h[3]? = some c)
    (hfail : (pyFind ITOA64 c < 7 ∨ 30 < pyFind ITOA64 c)
      ∨ ((h.drop 4).take 8).length ≠ 8) :
    _crypt_private md5 pw h
      = some (if pyStartsWith h "*0".data then "*1".data else "*0".data) := by
  by_cases hbad : (pyFind ITOA64 c < 7 ∨ 30 < pyFind ITOA64 c)
  · simp only [_crypt_private, hpre, Bool.false_eq_true, if_false, hc, if_pos hbad]
  · have hsalt : ((h.drop 4).take 8).length ≠ 8 := by tauto
    simp only [_crypt_private, hpre, Bool.false_eq_true, if_false, hc, if_neg hbad,
      if_pos hsalt]

theorem star_output_ne (t : List Char) :
    ((if pyStartsWith ('$' :: t) "*0".data then "*1".data else "*0".data)
      == ('$' :: t)) = false := by
  have h1 : pyStartsWith ('$' :: t) "*0".data = false := by
    show pyStartsWith ('$' :: t) ('*' :: '0' :: []) = false
    simp [pyStartsWith_cons]
  rw [h1, if_neg (by simp), beq_eq_false_iff_ne]
  intro heq
  simp at heq

theorem prefix_forms {h : List Char}
    (hpre : (pyStartsWith h "$P$".data || pyStartsWith h "$H$".data) = true) :
    (!pyStartsWith h "$P$".data && !pyStartsWith h "$H$".data) = false
    ∧ ∃ t, h = '$' :: t := by
  rcases (by simpa using hpre :
      pyStartsWith h "$P$".data = true ∨ pyStartsWith h "$H$".data = true) with hp | hp
  · rcases (pyStartsWith_iff _ _).mp hp with ⟨t, ht⟩
    exact ⟨by simp [hp], ⟨'P' :: '$' :: t, by rw [ht]; rfl⟩⟩
  · rcases (pyStartsWith_iff _ _).mp hp with ⟨t, ht⟩
    exact ⟨by simp [hp], ⟨'H' :: '$' :: t, by rw [ht]; rfl⟩⟩

theorem beq_append_cancel (a x y : List Char) : ((a ++ x) == (a ++ y)) = (x == y) := by
  cases hxy : (x == y) with
  | true =>
    have hx : x = y := eq_of_beq hxy
    subst hx
    simp
  | false =>
    rw [beq_eq_false_iff_ne] at hxy
    exact beq_eq_false_iff_ne.mpr fun hh => hxy (List.append_cancel_left hh)

theorem phpassHash_parse (md5 : Md5) (pw S : List Char) (L : Nat)
    (hS : S.length = 8) (hL : L < 64) :
    pyStartsWith (phpassHash md5 pw S L) "$P$".data = true
    ∧ (phpassHash md5 pw S L)[3]? = some (ITOA64.getD L '.')
    ∧ pyFind ITOA64 (ITOA64.getD L '.') = (L : Int)
    ∧ ((phpassHash md5 pw S L).drop 4).take 8 = S
    ∧ (phpassHash md5 pw S L).take 12 = '$' :: 'P' :: '$' :: ITOA64.getD L '.' :: S := by
  have hst : ((S ++ encode64Chunks ((phpassDigest md5 pw S (2 ^ L)).take 16)).take 8) = S := by
    rw [← hS]
    exact List.take_left _ _
  refine ⟨?_, ?_, pyFind_itoa_getD L hL, ?_, ?_⟩
  · show pyStartsWith ('$' :: 'P' :: '$' :: ITOA64.getD L '.' ::
      (S ++ encode64Chunks ((phpassDigest md5 pw S (2 ^ L)).take 16)))
      ('$' :: 'P' :: '$' :: []) = true
    simp [pyStartsWith_cons]
  · show ('$' :: 'P' :: '$' :: ITOA64.getD L '.' ::
      (S ++ encode64Chunks ((phpassDigest md5 pw S (2 ^ L)).take 16)))[3]?
      = some (ITOA64.getD L '.')
    simp
  · show ((('$' :: 'P' :: '$' :: ITOA64.getD L '.' ::
      (S ++ encode64Chunks ((phpassDigest md5 pw S (2 ^ L)).take 16)))).drop 4).take 8 = S
    simpa using hst
  · show ('$' :: 'P' :: '$' :: ITOA64.getD L '.' ::
      (S ++ encode64Chunks ((phpassDigest md5 pw S (2 ^ L)).take 16))).take 12
      = '$' :: 'P' :: '$' :: ITOA64.getD L '.' :: S
    simpa using hst

/-- Verifying any candidate password against a built phpass hash reduces to
comparing the two encoded digests. -/
theorem phpassHash_verify (md5 : Md5) (hm : Md5Spec md5) (pw pw2 S : List Char) (L : Nat)
    (hS : S.length = 8) (h7 : 7 ≤ L) (h30 : L ≤ 30) :
    verify_phpass_password md5 pw2 (phpassHash md5 pw S L)
      = some (encode64Chunks (phpassDigest md5 pw2 S (2 ^ L))
          == encode64Chunks (phpassDigest md5 pw S (2 ^ L))) := by
  obtain ⟨hp, hc, hfind, hsalt, htake12⟩ := phpassHash_parse md5 pw S L hS (by omega)
  have hpre : (pyStartsWith (phpassHash md5 pw S L) "$P$".data
      || pyStartsWith (phpassHash md5 pw S L) "$H$".data) = true := by
    rw [hp]; rfl
  obtain ⟨hpreF, -⟩ := prefix_forms hpre
  have h7i : 7 ≤ pyFind ITOA64 (ITOA64.getD L '.') := by rw [hfind]; exact_mod_cast h7
  have h30i : pyFind ITOA64 (ITOA64.getD L '.') ≤ 30 := by rw [hfind]; exact_mod_cast h30
  have hslen : (((phpassHash md5 pw S L).drop 4).take 8).length = 8 := by rw [hsalt, hS]
  have hcrypt := crypt_private_parsed md5 hm pw2 (phpassHash md5 pw S L) hpreF hc h7i h30i hslen
  rw [hsalt] at hcrypt
  have htn : (pyFind ITOA64 (ITOA64.getD L '.')).toNat = L := by rw [hfind]; simp
  rw [htn] at hcrypt
  have hE : (phpassDigest md5 pw S (2 ^ L)).take 16 = phpassDigest md5 pw S (2 ^ L) := by
    rw [← (phpassDigest_spec md5 hm pw S (2 ^ L)).1, List.take_length]
  have hH : phpassHash md5 pw S L = (phpassHash md5 pw S L).take 12
      ++ encode64Chunks (phpassDigest md5 pw S (2 ^ L)) := by
    rw [htake12]
    show '$' :: 'P' :: '$' :: ITOA64.getD L '.' ::
        (S ++ encode64Chunks ((phpassDigest md5 pw S (2 ^ L)).take 16)) = _
    rw [hE]
    simp
  simp only [verify_phpass_password, hpreF, Bool.false_eq_true, if_false, hcrypt,
    Option.map_some']
  congr 1
  nth_rewrite 2 [hH]
  exact beq_append_cancel _ _ _

/-- C3: `verify_phpass_password` accepts exactly the hashes described by the
spec's parse-and-recompute condition; it accepts every hash built from the
password itself (for any valid salt and iteration exponent), and rejects a
hash built from another password whenever the two iterated digests differ. -/
theorem C3_phpass_characterization (md5 : Md5) (hm : Md5Spec md5) :
    (∀ pw h, verify_phpass_password md5 pw h = some true ↔ phpassAcceptCond md5 pw h)
  ∧ (∀ pw S L, S.length = 8 → 7 ≤ L → L ≤ 30 →
      verify_phpass_password md5 pw (phpassHash md5 pw S L) = some true)
  ∧ (∀ pw pw2 S L, S.length = 8 → 7 ≤ L → L ≤ 30 →
      phpassDigest md5 pw2 S (2 ^ L) ≠ phpassDigest md5 pw S (2 ^ L) →
      verify_phpass_password md5 pw2 (phpassHash md5 pw S L) = some false) := by
  refine ⟨?_, ?_, ?_⟩
  · intro pw h
    constructor
    · intro hv
      by_cases hpre : (pyStartsWith h "$P$".data || pyStartsWith h "$H$".data) = true
      · obtain ⟨hpreF, t, ht⟩ := prefix_forms hpre
        rcases h3 : h[3]? with _ | c
        · rw [verify_phpass_password, if_neg (by rw [hpreF]; simp),
            crypt_private_idx_none md5 pw h hpreF h3] at hv
          cases hv
        · by_cases h7 : 7 ≤ pyFind ITOA64 c
          · by_cases h30 : pyFind ITOA64 c ≤ 30
            · by_cases hs : ((h.drop 4).take 8).length = 8
              · rw [verify_phpass_password, if_neg (by rw [hpreF]; simp),
                  crypt_private_parsed md5 hm pw h hpreF h3 h7 h30 hs,
                  Option.map_some'] at hv
                have hbeq := Option.some.inj hv
                refine ⟨hpre, c, h3, h7, h30, hs, ?_⟩
                exact (eq_of_beq hbeq).symm
              · rw [verify_phpass_password, if_neg (by rw [hpreF]; simp),
                  crypt_private_reject md5 pw h hpreF h3 (Or.inr hs),
                  Option.map_some'] at hv
                rw [ht, star_output_ne] at hv
                cases hv
            · rw [verify_phpass_password, if_neg (by rw [hpreF]; simp),
                crypt_private_reject md5 pw h hpreF h3 (Or.inl (by omega)),
                Option.map_some'] at hv
              rw [ht, star_output_ne] at hv
              cases hv
          · rw [verify_phpass_password, if_neg (by rw [hpreF]; simp),
              crypt_private_reject md5 pw h hpreF h3 (Or.inl (by omega)),
              Option.map_some'] at hv
            rw [ht, star_output_ne] at hv
            cases hv
      · have hpreF : (!pyStartsWith h "$P$".data && !pyStartsWith h "$H$".data) = true := by
          revert hpre
          cases pyStartsWith h "$P$".data <;> cases pyStartsWith h "$H$".data <;> simp
        rw [verify_phpass_password, if_pos (by rw [hpreF])] at hv
        cases hv
    · intro hacc
      obtain ⟨hpre, c, h3, h7, h30, hs, heq⟩ := hacc
      obtain ⟨hpreF, -⟩ := prefix_forms hpre
      rw [verify_phpass_password, if_neg (by rw [hpreF]; simp),
        crypt_private_parsed md5 hm pw h hpreF h3 h7 h30 hs, Option.map_some']
      have hb : (h.take 12 ++ encode64Chunks (phpassDigest md5 pw ((h.drop 4).take 8)
          (2 ^ (pyFind ITOA64 c).toNat)) == h) = true := by
        rw [beq_iff_eq]
        exact heq.symm
      rw [hb]
  · intro pw S L hS h7 h30
    rw [phpassHash_verify md5 hm pw pw S L hS h7 h30]
    simp
  · intro pw pw2 S L hS h7 h30 hdiff
    rw [phpassHash_verify md5 hm pw pw2 S L hS h7 h30]
    have s2 := phpassDigest_spec md5 hm pw2 S (2 ^ L)
    have s1 := phpassDigest_spec md5 hm pw S (2 ^ L)
    have hne : encode64Chunks (phpassDigest md5 pw2 S (2 ^ L))
        ≠ encode64Chunks (phpassDigest md5 pw S (2 ^ L)) := by
      intro he
      exact hdiff (encode64Chunks_inj _ _ (by rw [s2.1, s1.1]) s2.2 s1.2 he)
    rw [beq_eq_false_iff_ne.mpr hne]

set_option maxRecDepth 100000 in
/-- Witness for C3: concrete round-trip success and wrong-password failure
under the stand-in digest, at salt `"saltsalt"` and iteration exponent 7. -/
theorem C3_witness :
    verify_phpass_password toyMd5 "pw".data (phpassHash toyMd5 "pw".data "saltsalt".data 7)
      = some true
    ∧ verify_phpass_password toyMd5 "xq".data (phpassHash toyMd5 "pw".data "saltsalt".data 7)
      = some false := by
  have hm : Md5Spec toyMd5 := by
    intro b
    constructor
    · simp [toyMd5]
    · intro x hx
      simp only [toyMd5, List.mem_map] at hx
      obtain ⟨i, -, hi⟩ := hx
      omega
  exact ⟨(C3_phpass_characterization toyMd5 hm).2.1 "pw".data "saltsalt".data 7
      (by decide) (by decide) (by decide),
    (C3_phpass_characterization toyMd5 hm).2.2 "pw".data "xq".data "saltsalt".data 7
      (by decide) (by decide) (by decide) (by decide)⟩

/-! ## Dictionary lemmas for the token payloads -/

theorem pyDictGet_cons_eq {p : List Char × JVal} {k : List Char}
    (hp : (p.1 == k) = true) (d : Payload) : pyDictGet (p :: d) k = some p.2 := by
  simp only [pyDictGet, List.find?, hp]
  rfl

theorem pyDictGet_cons_ne {p : List Char × JVal} {k : List Char}
    (hp : (p.1 == k) = false) (d : Payload) : pyDictGet (p :: d) k = pyDictGet d k := by
  simp only [pyDictGet, List.find?, hp]

theorem pyDictSet_cons_eq {p : List Char × JVal} {k : List Char} (v : JVal)
    (hp : (p.1 == k) = true) (d : Payload) :
    pyDictSet (p :: d) k v = (k, v) :: d.map (fun q => if q.1 == k then (k, v) else q) := by
  have hany : ((p :: d).any (fun q => q.1 == k)) = true := by
    simp [List.any_cons, hp]
  simp only [pyDictSet]
  rw [if_pos hany, List.map_cons, if_pos hp]

theorem pyDictSet_cons_ne {p : List Char × JVal} {k : List Char} (v : JVal)
    (hp : (p.1 == k) = false) (d : Payload) :
    pyDictSet (p :: d) k v = p :: pyDictSet d k v := by
  simp only [pyDictSet, List.any_cons, hp, Bool.false_or]
  by_cases ht : d.any (fun q => q.1 == k) = true
  · rw [if_pos ht, if_pos ht, List.map_cons, if_neg (by simp [hp])]
  · rw [if_neg ht, if_neg ht, List.cons_append]

theorem pyDictGet_set_same (d : Payload) (k : List Char) (v : JVal) :
    pyDictGet (pyDictSet d k v) k = some v := by
  induction d with
  | nil => simp [pyDictSet, pyDictGet]
  | cons p t ih =>
    by_cases hp : (p.1 == k) = true
    · rw [pyDictSet_cons_eq v hp]
      exact pyDictGet_cons_eq (by simp) _
    · rw [pyDictSet_cons_ne v (by simpa using hp),
        pyDictGet_cons_ne (by simpa using hp)]
      exact ih

theorem pyDictGet_map_set_ne (t : Payload) {k q : List Char} (v : JVal)
    (hkq : (k == q) = false) :
    pyDictGet (t.map (fun p => if p.1 == k then (k, v) else p)) q = pyDictGet t q := by
  induction t with
  | nil => rfl
  | cons p r ih =>
    by_cases hp : (p.1 == k) = true
    · rw [List.map_cons, if_pos hp, pyDictGet_cons_ne hkq,
        pyDictGet_cons_ne (by rw [eq_of_beq hp]; exact hkq)]
      exact ih
    · rw [List.map_cons, if_neg (by simpa using hp)]
      by_cases hq : (p.1 == q) = true
      · rw [pyDictGet_cons_eq hq, pyDictGet_cons_eq hq]
      · rw [pyDictGet_cons_ne (by simpa using hq), pyDictGet_cons_ne (by simpa using hq)]
        exact ih

theorem pyDictGet_set_ne (d : Payload) {k q : List Char} (v : JVal)
    (hne : (q == k) = false) :
    pyDictGet (pyDictSet d k v) q = pyDictGet d q := by
  have hkq : (k == q) = false :=
    beq_eq_false_iff_ne.mpr fun hh => (beq_eq_false_iff_ne.mp hne) hh.symm
  induction d with
  | nil =>
    show pyDictGet ([] ++ [(k, v)]) q = pyDictGet [] q
    rw [List.nil_append, pyDictGet_cons_ne hkq]
  | cons p t ih =>
    by_cases hp : (p.1 == k) = true
    · rw [pyDictSet_cons_eq v hp, pyDictGet_cons_ne hkq, pyDictGet_map_set_ne t v hkq,
        pyDictGet_cons_ne (by rw [eq_of_beq hp]; exact hkq)]
    · rw [pyDictSet_cons_ne v (by simpa using hp)]
      by_cases hq : (p.1 == q) = true
      · rw [pyDictGet_cons_eq hq, pyDictGet_cons_eq hq]
      · rw [pyDictGet_cons_ne (by simpa using hq), pyDictGet_cons_ne (by simpa using hq)]
        exact ih

theorem pyDictUpdate_pair (d : Payload) (k1 k2 : List Char) (v1 v2 : JVal) :
    pyDictUpdate d [(k1, v1), (k2, v2)] = pyDictSet (pyDictSet d k1 v1) k2 v2 := rfl

/-! ## C10 -/

/-- C10: the encoded payload of an issued token is exactly the caller's
claims map with the `exp` and `type` entries assigned (added or
overwritten), the `type` entry is always `"access"` resp. `"refresh"`
regardless of any caller-supplied `type`, and every other key reads exactly
as in the caller's map.  (The source operates on `data.copy()`, which the
purely functional embedding renders by construction: `data` itself is never
modified.) -/
theorem C10_payload_frame (key alg : List Char) (ttlMin refreshDays : Int)
    (data : Payload) (now : Int) (expires_delta : Option Int) :
    (tokenPayload (create_access_token key alg ttlMin data now expires_delta)
        = pyDictUpdate data [("exp".data, .t (accessExpire ttlMin now expires_delta)),
            ("type".data, .s "access".data)]
      ∧ pyDictGet (tokenPayload (create_access_token key alg ttlMin data now expires_delta))
          "type".data = some (.s "access".data)
      ∧ ∀ q : List Char, (q == "exp".data) = false → (q == "type".data) = false →
          pyDictGet (tokenPayload (create_access_token key alg ttlMin data now expires_delta)) q
            = pyDictGet data q)
  ∧ (tokenPayload (create_refresh_token key alg refreshDays data now)
        = pyDictUpdate data [("exp".data, .t (refreshExpire refreshDays now)),
            ("type".data, .s "refresh".data)]
      ∧ pyDictGet (tokenPayload (create_refresh_token key alg refreshDays data now))
          "type".data = some (.s "refresh".data)
      ∧ ∀ q : List Char, (q == "exp".data) = false → (q == "type".data) = false →
          pyDictGet (tokenPayload (create_refresh_token key alg refreshDays data now)) q
            = pyDictGet data q) := by
  refine ⟨⟨rfl, ?_, ?_⟩, ⟨rfl, ?_, ?_⟩⟩
  · show pyDictGet (pyDictUpdate data _) "type".data = _
    rw [pyDictUpdate_pair, pyDictGet_set_same]
  · intro q hqe hqt
    show pyDictGet (pyDictUpdate data _) q = _
    rw [pyDictUpdate_pair, pyDictGet_set_ne _ _ hqt, pyDictGet_set_ne _ _ hqe]
  · show pyDictGet (pyDictUpdate data _) "type".data = _
    rw [pyDictUpdate_pair, pyDictGet_set_same]
  · intro q hqe hqt
    show pyDictGet (pyDictUpdate data _) q = _
    rw [pyDictUpdate_pair, pyDictGet_set_ne _ _ hqt, pyDictGet_set_ne _ _ hqe]

/-- Witness for C10: a caller-supplied `type` claim of `"refresh"` is
overwritten to `"access"` in an access token, while `sub` survives. -/
theorem C10_witness :
    pyDictGet (tokenPayload (create_access_token "k".data "HS256".data 1080
        [("sub".data, .s "42".data), ("type".data, .s "refresh".data)] 0 none)) "type".data
      = some (.s "access".data)
    ∧ pyDictGet (tokenPayload (create_access_token "k".data "HS256".data 1080
        [("sub".data, .s "42".data), ("type".data, .s "refresh".data)] 0 none)) "sub".data
      = some (.s "42".data) := by
  have h := C10_payload_frame "k".data "HS256".data 1080 7
    [("sub".data, JVal.s "42".data), ("type".data, JVal.s "refresh".data)] 0 none
  exact ⟨h.1.2.1, (h.1.2.2 "sub".data (by decide) (by decide)).trans (by decide)⟩

/-! ## C8 -/

/-- C8: a token issued by `create_access_token` over a claims map carrying
`sub = s`, decoded with the same key and algorithm before its expiry,
yields claims with that `sub` and with `type = "access"` (and analogously
`"refresh"`); decoded at or after expiry it yields `None`, as do a
structurally invalid token and a token signed under a different key or
algorithm. -/
theorem C8_token_lifecycle (key alg s : List Char) (ttlMin refreshDays : Int)
    (data : Payload) (now dnow : Int) (expires_delta : Option Int)
    (hsub : pyDictGet data "sub".data = some (.s s)) :
    (dnow < accessExpire ttlMin now expires_delta →
      ∃ p, decode_token key alg dnow
          (create_access_token key alg ttlMin data now expires_delta) = some p
        ∧ pyDictGet p "sub".data = some (.s s)
        ∧ pyDictGet p "type".data = some (.s "access".data))
  ∧ (accessExpire ttlMin now expires_delta ≤ dnow →
      decode_token key alg dnow
        (create_access_token key alg ttlMin data now expires_delta) = none)
  ∧ (dnow < refreshExpire refreshDays now →
      ∃ p, decode_token key alg dnow
          (create_refresh_token key alg refreshDays data now) = some p
        ∧ pyDictGet p "sub".data = some (.s s)
        ∧ pyDictGet p "type".data = some (.s "refresh".data))
  ∧ (refreshExpire refreshDays now ≤ dnow →
      decode_token key alg dnow (create_refresh_token key alg refreshDays data now) = none)
  ∧ (∀ raw, decode_token key alg dnow (JwtToken.malformed raw) = none)
  ∧ (∀ p k2 a2, ((k2 == key) = false ∨ (a2 == alg) = false) →
      decode_token key alg dnow (JwtToken.signed p k2 a2) = none) := by
  have hexpA : pyDictGet (pyDictUpdate data
      [("exp".data, JVal.t (accessExpire ttlMin now expires_delta)),
        ("type".data, JVal.s "access".data)]) "exp".data
      = some (.t (accessExpire ttlMin now expires_delta)) := by
    rw [pyDictUpdate_pair, pyDictGet_set_ne _ _ (by decide), pyDictGet_set_same]
  have hexpR : pyDictGet (pyDictUpdate data
      [("exp".data, JVal.t (refreshExpire refreshDays now)),
        ("type".data, JVal.s "refresh".data)]) "exp".data
      = some (.t (refreshExpire refreshDays now)) := by
    rw [pyDictUpdate_pair, pyDictGet_set_ne _ _ (by decide), pyDictGet_set_same]
  have hdecA : decode_token key alg dnow
      (create_access_token key alg ttlMin data now expires_delta)
      = if dnow < accessExpire ttlMin now expires_delta
        then some (pyDictUpdate data
          [("exp".data, JVal.t (accessExpire ttlMin now expires_delta)),
            ("type".data, JVal.s "access".data)])
        else none := by
    simp only [decode_token, create_access_token, jwtEncode, jwtDecode, hexpA]
    simp
  have hdecR : decode_token key alg dnow (create_refresh_token key alg refreshDays data now)
      = if dnow < refreshExpire refreshDays now
        then some (pyDictUpdate data
          [("exp".data, JVal.t (refreshExpire refreshDays now)),
            ("type".data, JVal.s "refresh".data)])
        else none := by
    simp only [decode_token, create_refresh_token, jwtEncode, jwtDecode, hexpR]
    simp
  refine ⟨?_, ?_, ?_, ?_, ?_, ?_⟩
  · intro hlt
    refine ⟨_, by rw [hdecA, if_pos hlt], ?_, ?_⟩
    · rw [pyDictUpdate_pair, pyDictGet_set_ne _ _ (by decide),
        pyDictGet_set_ne _ _ (by decide)]
      exact hsub
    · rw [pyDictUpdate_pair, pyDictGet_set_same]
  · intro hge
    rw [hdecA, if_neg (by omega)]
  · intro hlt
    refine ⟨_, by rw [hdecR, if_pos hlt], ?_, ?_⟩
    · rw [pyDictUpdate_pair, pyDictGet_set_ne _ _ (by decide),
        pyDictGet_set_ne _ _ (by decide)]
      exact hsub
    · rw [pyDictUpdate_pair, pyDictGet_set_same]
  · intro hge
    rw [hdecR, if_neg (by omega)]
  · intro raw
    rfl
  · intro p k2 a2 hbad
    rcases hbad with hk | ha
    · simp [decode_token, jwtDecode, hk]
    · simp only [decode_token, jwtDecode]
      rw [if_neg]
      simp only [Bool.and_eq_true, beq_iff_eq, List.contains_cons, Bool.or_eq_true]
      intro hcon
      rcases hcon.2 with h2 | h2
      · exact absurd h2 (beq_eq_false_iff_ne.mp ha)
      · simp at h2

/-- Witness for C8: a concrete token decoded before and after expiry, plus a
malformed bearer string. -/
theorem C8_witness :
    (∃ p, decode_token "k".data "HS256".data 100
        (create_access_token "k".data "HS256".data 1080 [("sub".data, .s "42".data)] 0 none)
        = some p
      ∧ pyDictGet p "sub".data = some (.s "42".data)
      ∧ pyDictGet p "type".data = some (.s "access".data))
    ∧ decode_token "k".data "HS256".data 999999
        (create_access_token "k".data "HS256".data 1080 [("sub".data, .s "42".data)] 0 none)
        = none
    ∧ decode_token "k".data "HS256".data 100 (JwtToken.malformed "zz".data) = none := by
  have h1 := C8_token_lifecycle "k".data "HS256".data "42".data 1080 7
    [("sub".data, JVal.s "42".data)] 0 100 none (by decide)
  have h2 := C8_token_lifecycle "k".data "HS256".data "42".data 1080 7
    [("sub".data, JVal.s "42".data)] 0 999999 none (by decide)
  exact ⟨h1.1 (by decide), h2.2.1 (by decide), h1.2.2.2.2.1 "zz".data⟩

/-! ## C9 -/

/-- C9: the specification requires the final phpass hash comparison to be a
constant-time string equality, but security.py line 118 compares with plain
`==`.  In the comparison-cost model `eqSteps` of that short-circuiting
equality, the work depends on the position of the first differing
character: against the same 34-character stored hash shape, a recomputed
hash differing at position 0 is resolved after inspecting 1 cell while one
differing only at position 33 takes 34 — the claimed constant-time property
fails on the code. -/
theorem C9_compare_not_constant_time :
    eqSteps "XP$BsaltsaltAAAAAAAAAAAAAAAAAAAAAA".data
        "$P$BsaltsaltAAAAAAAAAAAAAAAAAAAAAA".data = 1
    ∧ eqSteps "$P$BsaltsaltAAAAAAAAAAAAAAAAAAAAAB".data
        "$P$BsaltsaltAAAAAAAAAAAAAAAAAAAAAA".data = 34
    ∧ ("XP$BsaltsaltAAAAAAAAAAAAAAAAAAAAAA".data).length = 34
    ∧ ("$P$BsaltsaltAAAAAAAAAAAAAAAAAAAAAB".data).length = 34
    ∧ ("$P$BsaltsaltAAAAAAAAAAAAAAAAAAAAAA".data).length = 34 := by decide

end Mrpfx
